import Mathlib

/-!
Verification of `gpflow/mean_functions.py`.

The module is embedded shallowly: a rank-2 tensor is a list of rows
together with an explicit column count (the column count of an empty
tensor is significant, e.g. for the empty partitions produced by
`SwitchedMeanFunction`), tensor values are rationals, and every
fallible tensor-engine operation returns an `Option`.
-/

set_option autoImplicit false

namespace GPflow

abbrev Val := ℚ

/-- A rank-2 tensor: a row list plus the column count recorded in the
tensor's shape metadata (meaningful even when there are no rows). -/
structure Tensor2 where
  cols : Nat
  data : List (List Val)
deriving DecidableEq, Repr

/-- Number of rows, as recorded by the shape. -/
def Tensor2.rows (t : Tensor2) : Nat := t.data.length

/-- Well-formedness: every row has exactly `cols` entries. -/
def Tensor2.wf (t : Tensor2) : Prop := ∀ r ∈ t.data, r.length = t.cols

instance (t : Tensor2) : Decidable t.wf :=
  inferInstanceAs (Decidable (∀ r ∈ t.data, r.length = t.cols))

/-- Dot product of two equally long vectors. -/
def dot (u v : List Val) : Val := (List.zipWith (· * ·) u v).sum

/-- Column `j` of a tensor. -/
def matCol (A : Tensor2) (j : Nat) : List Val := A.data.map (fun r => r.getD j 0)

/-- One row of a matrix product: `row · A`. -/
def mmRow (A : Tensor2) (row : List Val) : List Val :=
  (List.range A.cols).map (fun j => dot row (matCol A j))

/-- `tf.matmul X A`: requires the inner dimensions to agree, else a
shape-mismatch failure. -/
def matmul (X A : Tensor2) : Option Tensor2 :=
  if X.cols = A.rows then some ⟨A.cols, X.data.map (mmRow A)⟩ else none

/-- Broadcasting of one axis length against another (numpy rules). -/
def bcastLen (a b : Nat) : Option Nat :=
  if a = b then some a else if a = 1 then some b else if b = 1 then some a else none

/-- Materialise the rows of `t` broadcast to shape `(r, c)`; only used
when `bcastLen` succeeded, so each axis either matches or has extent 1. -/
def bcastTo (t : Tensor2) (r c : Nat) : List (List Val) :=
  let rowsData := if t.rows = r then t.data else List.replicate r (t.data.headD [])
  if t.cols = c then rowsData else rowsData.map (fun row => List.replicate c (row.headD 0))

/-- Elementwise binary operation with numpy-style broadcasting
(`tf.add` / `tf.multiply` on rank-2 tensors). -/
def elemwise (f : Val → Val → Val) (t u : Tensor2) : Option Tensor2 := do
  let r ← bcastLen t.rows u.rows
  let c ← bcastLen t.cols u.cols
  some ⟨c, List.zipWith (List.zipWith f) (bcastTo t r c) (bcastTo u r c)⟩

/-- `tf.cast` from float to int32 truncates toward zero. -/
def castToInt (q : Val) : Int := Int.tdiv q.num (Int.ofNat q.den)

/-- The rows of `xs` whose label in `ind` equals `g`, in order
(one output group of `tf.dynamic_partition`). -/
def partOne {α : Type} (ind : List Int) (xs : List α) (g : Nat) : List α :=
  (ind.zip xs).filterMap (fun p => if p.1 = (g : Int) then some p.2 else none)

/-- `tf.dynamic_partition xs ind k`: stable partition of `xs` into `k`
groups keyed by the labels `ind`. -/
def dynPartition {α : Type} (xs : List α) (ind : List Int) (k : Nat) : List (List α) :=
  (List.range k).map (fun g => partOne ind xs g)

/-- The index/value pairs fed into `tf.dynamic_stitch`. -/
def stitchPairs {α : Type} (indices : List (List Nat)) (data : List (List α)) :
    List (Nat × α) :=
  (indices.zip data).flatMap (fun p => p.1.zip p.2)

/-- `tf.dynamic_stitch`: merged size is one more than the largest index,
and slot `i` receives the (last) value paired with index `i`. -/
def dynStitch {α : Type} (indices : List (List Nat)) (data : List (List α)) : List α :=
  (List.range ((stitchPairs indices data).foldl (fun acc p => max acc (p.1 + 1)) 0)).filterMap
    (fun i => (((stitchPairs indices data).filter (fun p => p.1 = i)).getLast?).map Prod.snd)

/-- The mean-function expression tree of `gpflow/mean_functions.py`.
`Linear` carries the parameters `A` and `b`; `Identity` carries the
optional `input_dim`; `Constant` carries `c` (stored as one row);
`Zero` carries `output_dim`; `SwitchedMeanFunction` carries its ordered
child list; `Additive` and `Product` carry their two parts. -/
inductive MeanFunction where
  | Linear (A : Tensor2) (b : List Val)
  | Identity (input_dim : Option Nat)
  | Constant (c : List Val)
  | Zero (output_dim : Nat)
  | SwitchedMeanFunction (children : List MeanFunction)
  | Additive (first_part second_part : MeanFunction)
  | Product (first_part second_part : MeanFunction)

/-- Label column extracted by `SwitchedMeanFunction.__call__`:
`ind = tf.cast(X[:, -1], tf.int32)`. -/
def switchIndices (X : Tensor2) : List Int :=
  X.data.map (fun row => castToInt (row.getD (X.cols - 1) 0))

/-- Feature columns kept by `SwitchedMeanFunction.__call__`: `X[:, :-1]`. -/
def switchFeatures (X : Tensor2) : List (List Val) :=
  X.data.map (fun row => row.take (X.cols - 1))

mutual

/-- `__call__` of each mean function, on a rank-2 input tensor. -/
def eval : MeanFunction → Tensor2 → Option Tensor2
  | .Linear A b, X => do
      let M ← matmul X A
      elemwise (· + ·) M ⟨b.length, [b]⟩
  | .Identity _, X => some X
  | .Constant c, X => some ⟨c.length, List.replicate X.rows c⟩
  | .Zero q, X => some ⟨q, List.replicate X.rows (List.replicate q 0)⟩
  | .SwitchedMeanFunction cs, X => do
      let ind := switchIndices X
      let xs := dynPartition (switchFeatures X) ind cs.length
      let results ← evalList cs (xs.map (fun rs => (⟨X.cols - 1, rs⟩ : Tensor2)))
      let q := ((results.head?).map Tensor2.cols).getD 0
      if results.all (fun t => t.cols = q) then
        let partitions := dynPartition (List.range X.rows) ind cs.length
        some ⟨q, dynStitch partitions (results.map Tensor2.data)⟩
      else none
  | .Additive f g, X => do elemwise (· + ·) (← eval f X) (← eval g X)
  | .Product f g, X => do elemwise (· * ·) (← eval f X) (← eval g X)

/-- `[m(x) for x, m in zip(x_list, self.meanfunction_list)]`, with the
results sequenced: any child failure fails the whole evaluation. -/
def evalList : List MeanFunction → List Tensor2 → Option (List Tensor2)
  | [], _ => some []
  | _ :: _, [] => some []
  | c :: cs, x :: xs => do
      let y ← eval c x
      let ys ← evalList cs xs
      some (y :: ys)

end

mutual

/-- Validity of a single input row for a mean function: every switch node
reached along the row's route gets an integer label in `[0, K)`.  The leaf
functions and the elementwise combinators impose no row condition. -/
def rowOKb : MeanFunction → List Val → Bool
  | .Linear _ _, _ => true
  | .Identity _, _ => true
  | .Constant _, _ => true
  | .Zero _, _ => true
  | .SwitchedMeanFunction cs, row =>
      rowOKbAt cs (castToInt (row.getD (row.length - 1) 0)) (row.take (row.length - 1))
  | .Additive f g, row => rowOKb f row && rowOKb g row
  | .Product f g, row => rowOKb f row && rowOKb g row

/-- Helper: the label is a valid index into the child list, and the row's
feature part is valid for the selected child. -/
def rowOKbAt : List MeanFunction → Int → List Val → Bool
  | [], _, _ => false
  | c :: cs, .ofNat n, row =>
      match n with
      | 0 => rowOKb c row
      | n + 1 => rowOKbAt cs (.ofNat n) row
  | _ :: _, .negSucc _, _ => false

end

/-- Stretch a row to `target` columns when its own column count `orig`
differs (the column-axis half of broadcasting). -/
def adjCols (orig target : Nat) (v : List Val) : List Val :=
  if orig = target then v else List.replicate target (v.headD 0)

/-- A mean function `m` has row semantics `(q, φ)` at input width `d` when,
on every well-formed width-`d` input with valid rows, it succeeds and
produces exactly `φ row` (a row of width `q`) for each input row. -/
def RowSpec (m : MeanFunction) (d q : Nat) (φ : List Val → List Val) : Prop :=
  (∀ row : List Val, row.length = d → rowOKb m row = true → (φ row).length = q) ∧
  (∀ X : Tensor2, X.wf → X.cols = d → (∀ row ∈ X.data, rowOKb m row = true) →
     eval m X = some ⟨q, X.data.map φ⟩)

/-- A mean function fails on every well-formed width-`d` input with valid
rows (e.g. a `Linear` whose `A` cannot be multiplied at this width). -/
def AlwaysFails (m : MeanFunction) (d : Nat) : Prop :=
  ∀ X : Tensor2, X.wf → X.cols = d → (∀ row ∈ X.data, rowOKb m row = true) →
    eval m X = none

/-- The feature submatrix routed to child `g` by `SwitchedMeanFunction`
(empty partitions keep the feature width in their shape). -/
def partTensor (X : Tensor2) (g : Nat) : Tensor2 :=
  ⟨X.cols - 1, partOne (switchIndices X) (switchFeatures X) g⟩

/-! ### Identity's computed `A`/`b` properties and their no-op setters -/

/-- The error message raised by `Identity.A` / `Identity.b` when
`input_dim` is unset. -/
def identityErrMsg : String :=
  "An input_dim needs to be specified when using the `Identity` mean function in combination with expectations."

/-- `tf.eye d`. -/
def eyeMatrix (d : Nat) : List (List Val) :=
  (List.range d).map (fun i => (List.range d).map (fun j => if i = j then 1 else 0))

/-- The `Identity.A` property: an error when `input_dim` is unset, the
computed `input_dim × input_dim` identity matrix otherwise. -/
def identityA (input_dim : Option Nat) : Except String Tensor2 :=
  match input_dim with
  | none => .error identityErrMsg
  | some d => .ok ⟨d, eyeMatrix d⟩

/-- The `Identity.b` property: an error when `input_dim` is unset, the
computed zero vector of length `input_dim` otherwise. -/
def identityB (input_dim : Option Nat) : Except String (List Val) :=
  match input_dim with
  | none => .error identityErrMsg
  | some d => .ok (List.replicate d 0)

/-- The observable state of an `Identity` object: only `input_dim`
(the `A`/`b` assignments in `Linear.__init__` hit the no-op setters,
so no `A`/`b` is ever stored). -/
structure IdentityState where
  input_dim : Option Nat
deriving DecidableEq

/-- The `Identity.A` setter body is `pass`. -/
def identitySetA (s : IdentityState) (_v : Tensor2) : IdentityState := s

/-- The `Identity.b` setter body is `pass`. -/
def identitySetB (s : IdentityState) (_v : List Val) : IdentityState := s


/-! ### Generic list lemmas -/

theorem zipWith_map_replicate {α β γ δ : Type} (f : β → γ → δ) (u : α → β) (y : γ) :
    ∀ l : List α,
      List.zipWith f (l.map u) (List.replicate l.length y) = l.map (fun x => f (u x) y)
  | [] => rfl
  | a :: t => by
    simpa [List.replicate_succ] using zipWith_map_replicate f u y t

theorem zipWith_map_same {α β γ δ : Type} (f : β → γ → δ) (u : α → β) (v : α → γ)
    (l : List α) :
    List.zipWith f (l.map u) (l.map v) = l.map (fun x => f (u x) (v x)) := by
  rw [List.zipWith_map, List.zipWith_same]

theorem filterMap_getElem?_range {α : Type} :
    ∀ l : List α, (List.range l.length).filterMap (fun i => l[i]?) = l
  | [] => rfl
  | a :: t => by
    rw [List.length_cons, List.range_succ_eq_map, List.filterMap_cons,
      List.filterMap_map]
    have h1 : (a :: t)[0]? = some a := List.getElem?_cons_zero
    have h2 : ((fun i => (a :: t)[i]?) ∘ Nat.succ) = fun i => t[i]? := by
      funext i
      simp [Function.comp, List.getElem?_cons_succ]
    rw [h1, h2, filterMap_getElem?_range t]

theorem foldl_max_le {α : Type} (B : Nat) :
    ∀ (l : List (Nat × α)) (init : Nat), init ≤ B → (∀ p ∈ l, p.1 + 1 ≤ B) →
      l.foldl (fun acc p => max acc (p.1 + 1)) init ≤ B
  | [], _, h, _ => h
  | p :: t, init, h, hall => by
    refine foldl_max_le B t _ ?_ (fun x hx => hall x (List.mem_cons_of_mem _ hx))
    exact max_le h (hall p (List.mem_cons_self _ _))

theorem init_le_foldl_max {α : Type} :
    ∀ (l : List (Nat × α)) (init : Nat),
      init ≤ l.foldl (fun acc p => max acc (p.1 + 1)) init
  | [], _ => le_refl _
  | p :: t, init =>
    le_trans (le_max_left init (p.1 + 1)) (init_le_foldl_max t _)

theorem mem_le_foldl_max {α : Type} :
    ∀ (l : List (Nat × α)) (init : Nat) (p : Nat × α), p ∈ l →
      p.1 + 1 ≤ l.foldl (fun acc p => max acc (p.1 + 1)) init
  | q :: t, init, p, hp => by
    rcases List.mem_cons.1 hp with rfl | hp
    · exact le_trans (le_max_right init (p.1 + 1)) (init_le_foldl_max t _)
    · exact mem_le_foldl_max t _ p hp

theorem filter_eq_singleton_of_nodup {α : Type} :
    ∀ (zs : List (Nat × α)), (zs.map Prod.fst).Nodup → ∀ e ∈ zs,
      zs.filter (fun p => p.1 = e.1) = [e]
  | a :: t, hnd, e, he => by
    rw [List.map_cons, List.nodup_cons] at hnd
    rcases List.mem_cons.1 he with rfl | he
    · rw [List.filter_cons_of_pos (by simp)]
      have ht : t.filter (fun p => p.1 = e.1) = [] := by
        rw [List.filter_eq_nil_iff]
        intro p hp hfst
        exact hnd.1 (List.mem_map.2 ⟨p, hp, by simpa using hfst⟩)
      rw [ht]
    · have hne : ¬(a.1 = e.1) := fun h =>
        hnd.1 (List.mem_map.2 ⟨e, he, h.symm⟩)
      rw [List.filter_cons_of_neg (by simpa using hne)]
      exact filter_eq_singleton_of_nodup t hnd.2 e he

theorem flatMap_eq_of_single {α : Type} :
    ∀ (l : List Nat), l.Nodup → ∀ (h : Nat → List α) (g0 : Nat), g0 ∈ l →
      (∀ g ∈ l, g ≠ g0 → h g = []) → l.flatMap h = h g0
  | a :: t, hnd, h, g0, hg0, hz => by
    rw [List.nodup_cons] at hnd
    rw [List.flatMap_cons]
    rcases List.mem_cons.1 hg0 with rfl | hg0
    · have ht : t.flatMap h = [] := by
        rw [List.flatMap_eq_nil_iff]
        intro x hx
        exact hz x (List.mem_cons_of_mem _ hx) (fun hEq => hnd.1 (hEq ▸ hx))
      rw [ht, List.append_nil]
    · have hne : a ≠ g0 := fun hEq => hnd.1 (hEq ▸ hg0)
      rw [hz a (List.mem_cons_self _ _) hne, List.nil_append]
      exact flatMap_eq_of_single t hnd.2 h g0 hg0
        (fun g hg => hz g (List.mem_cons_of_mem _ hg))

/-! ### Lemmas about `partOne`, `dynPartition`, `dynStitch` -/

theorem partOne_nil_left {α : Type} (xs : List α) (g : Nat) :
    partOne [] xs g = [] := rfl

theorem partOne_nil_right {α : Type} (ind : List Int) (g : Nat) :
    partOne ind ([] : List α) g = [] := by
  simp [partOne]

theorem partOne_cons {α : Type} (l : Int) (ind : List Int) (x : α) (xs : List α)
    (g : Nat) :
    partOne (l :: ind) (x :: xs) g =
      if l = (g : Int) then x :: partOne ind xs g else partOne ind xs g := by
  unfold partOne
  rw [List.zip_cons_cons, List.filterMap_cons]
  by_cases h : l = (g : Int)
  · simp [h]
  · simp [h]

theorem partOne_sublist {α : Type} :
    ∀ (ind : List Int) (xs : List α) (g : Nat), (partOne ind xs g).Sublist xs
  | [], xs, g => by simp [partOne_nil_left]
  | _ :: _, [], g => by simp [partOne_nil_right]
  | l :: ind, x :: xs, g => by
    rw [partOne_cons]
    split
    · exact (partOne_sublist ind xs g).cons₂ x
    · exact (partOne_sublist ind xs g).cons x

theorem mem_partOne_iff {α : Type} (ind : List Int) (xs : List α) (g : Nat) (p : α) :
    p ∈ partOne ind xs g ↔
      ∃ j, ∃ h1 : j < ind.length, ∃ h2 : j < xs.length,
        ind[j] = (g : Int) ∧ xs[j] = p := by
  constructor
  · intro hp
    rcases List.mem_filterMap.1 hp with ⟨a, ha, hsome⟩
    rcases List.mem_iff_getElem.1 ha with ⟨j, hj, hget⟩
    have hj1 : j < ind.length := lt_of_lt_of_le hj (by simp [List.length_zip])
    have hj2 : j < xs.length := lt_of_lt_of_le hj (by simp [List.length_zip])
    have hz : a = (ind[j], xs[j]) := by rw [← hget, List.getElem_zip]
    subst hz
    by_cases hg : ind[j] = (g : Int)
    · refine ⟨j, hj1, hj2, hg, ?_⟩
      simp only [hg, if_pos rfl] at hsome
      exact Option.some.inj hsome
    · simp [hg] at hsome
  · rintro ⟨j, h1, h2, hg, hx⟩
    refine List.mem_filterMap.2 ⟨(ind[j], xs[j]), ?_, by simp [hg, hx]⟩
    refine List.mem_iff_getElem.2 ⟨j, ?_, List.getElem_zip⟩
    simp [List.length_zip]; omega

theorem zip_partOne {α β : Type} :
    ∀ (ind : List Int) (as : List α) (bs : List β), as.length = bs.length →
      ∀ g : Nat, (partOne ind as g).zip (partOne ind bs g) = partOne ind (as.zip bs) g
  | [], as, bs, _, g => by simp [partOne_nil_left]
  | _ :: _, [], bs, h, g => by
    have : bs = [] := List.eq_nil_of_length_eq_zero h.symm
    subst this; simp [partOne_nil_right]
  | _ :: _, a :: as, [], h, g => by simp at h
  | l :: ind, a :: as, b :: bs, h, g => by
    simp only [List.length_cons, Nat.succ.injEq] at h
    rw [List.zip_cons_cons, partOne_cons, partOne_cons, partOne_cons]
    split
    · rw [List.zip_cons_cons, zip_partOne ind as bs h g]
    · exact zip_partOne ind as bs h g

theorem partOne_label_apply {α β : Type} (F : Int → α → β) :
    ∀ (ind : List Int) (xs : List α) (g : Nat),
      partOne ind (List.zipWith (fun l x => F l x) ind xs) g =
        (partOne ind xs g).map (F (g : Int))
  | [], xs, g => by simp [partOne_nil_left]
  | _ :: _, [], g => by simp [partOne_nil_right]
  | l :: ind, x :: xs, g => by
    rw [List.zipWith_cons_cons, partOne_cons, partOne_cons]
    split
    · rename_i hl
      rw [List.map_cons, hl, partOne_label_apply F ind xs g]
    · exact partOne_label_apply F ind xs g

theorem dynPartition_eq {α : Type} (xs : List α) (ind : List Int) (k : Nat) :
    dynPartition xs ind k = (List.range k).map (fun g => partOne ind xs g) := rfl

/-- Partition-then-stitch round trip: stitching the stable partitions of the
positions `0..N-1` and of the values reproduces the values in original order,
provided every label lies in `[0, K)`. -/
theorem stitch_partition {α : Type} (ind : List Int) (ys : List α) (K : Nat)
    (hlen : ys.length = ind.length)
    (hK : ∀ l ∈ ind, ∃ g : Nat, g < K ∧ l = (g : Int)) :
    dynStitch (dynPartition (List.range ind.length) ind K) (dynPartition ys ind K) = ys := by
  set N := ind.length with hN
  set zs := (List.range N).zip ys with hzs
  have hzslen : zs.length = N := by simp [hzs, List.length_zip, hlen]
  have hpairs : stitchPairs (dynPartition (List.range N) ind K) (dynPartition ys ind K)
      = (List.range K).flatMap (fun g => partOne ind zs g) := by
    unfold stitchPairs
    rw [dynPartition_eq, dynPartition_eq, List.zip_map', List.flatMap_map]
    congr 1
    funext g
    simpa using zip_partOne ind (List.range N) ys (by simp [hlen]) g
  set P := (List.range K).flatMap (fun g => partOne ind zs g) with hP
  have hfst : zs.map Prod.fst = List.range N := List.map_fst_zip _ _ (by simp [hlen])
  have hnodup : (zs.map Prod.fst).Nodup := by rw [hfst]; exact List.nodup_range N
  have hget : ∀ (i : Nat) (h1 : i < zs.length) (h2 : i < ys.length),
      zs.get ⟨i, h1⟩ = (i, ys.get ⟨i, h2⟩) := by
    intro i h1 h2
    simp [hzs, List.get_eq_getElem, List.getElem_zip, List.getElem_range]
  have hzfst : ∀ (j : Nat) (h : j < zs.length), (zs.get ⟨j, h⟩).1 = j := by
    intro j h
    rw [hget j h (by omega)]
  have hfilter : ∀ (i : Nat) (hi : i < N) (h1 : i < zs.length),
      P.filter (fun p => p.1 = i) = [zs.get ⟨i, h1⟩] := by
    intro i hi h1
    obtain ⟨gi, hgiK, hgi⟩ := hK (ind.get ⟨i, hi⟩) (List.get_mem ind i hi)
    have hsingle : (partOne ind zs gi).filter (fun p => p.1 = i) = [zs.get ⟨i, h1⟩] := by
      have hsub : ((partOne ind zs gi).filter (fun p => p.1 = i)).Sublist
          (zs.filter (fun p => p.1 = i)) :=
        List.Sublist.filter _ (partOne_sublist ind zs gi)
      have hzfil : zs.filter (fun p => p.1 = i) = [zs.get ⟨i, h1⟩] := by
        have he := filter_eq_singleton_of_nodup zs hnodup (zs.get ⟨i, h1⟩)
          (List.get_mem zs i h1)
        rw [hzfst i h1] at he
        exact he
      rw [hzfil] at hsub
      have hmem : zs.get ⟨i, h1⟩ ∈ (partOne ind zs gi).filter (fun p => p.1 = i) := by
        rw [List.mem_filter]
        constructor
        · refine (mem_partOne_iff ind zs gi _).2 ⟨i, hi, h1, ?_, ?_⟩
          · rw [← hgi, List.get_eq_getElem]
          · rw [List.get_eq_getElem]
        · simp only [decide_eq_true_eq]
          exact hzfst i h1
      rcases List.sublist_singleton.1 hsub with hnil | hok
      · rw [hnil] at hmem; exact absurd hmem (List.not_mem_nil _)
      · exact hok
    rw [hP, List.filter_flatMap]
    refine flatMap_eq_of_single (List.range K) (List.nodup_range K) _ gi
      (List.mem_range.2 hgiK) ?_ |>.trans hsingle
    intro g hg hne
    rw [List.filter_eq_nil_iff]
    intro p hp hpi
    obtain ⟨j, hj1, hj2, hgj, hpj⟩ := (mem_partOne_iff ind zs g p).1 hp
    have hpj' : p.1 = j := by
      rw [← hpj, ← List.get_eq_getElem zs ⟨j, hj2⟩]
      exact hzfst j hj2
    have hji : j = i := by
      simp only [decide_eq_true_eq] at hpi
      omega
    subst hji
    apply hne
    have hcast : (gi : Int) = (g : Int) := by
      rw [← hgi, ← hgj, List.get_eq_getElem]
    exact_mod_cast hcast.symm
  have hlt : ∀ p ∈ P, p.1 < N := by
    intro p hp
    rcases List.mem_flatMap.1 hp with ⟨g, _, hpg⟩
    have hpz : p ∈ zs := (partOne_sublist ind zs g).subset hpg
    have hmap : p.1 ∈ zs.map Prod.fst := List.mem_map.2 ⟨p, hpz, rfl⟩
    rw [hfst] at hmap
    exact List.mem_range.1 hmap
  have hfold : P.foldl (fun acc p => max acc (p.1 + 1)) 0 = N := by
    apply le_antisymm
    · exact foldl_max_le N P 0 (Nat.zero_le N) (fun p hp => hlt p hp)
    · rcases Nat.eq_zero_or_pos N with hz | hpos
      · omega
      · have hn : N - 1 < N := by omega
        have hn1 : N - 1 < zs.length := by omega
        have hf := hfilter (N - 1) hn hn1
        have hmem : zs.get ⟨N - 1, hn1⟩ ∈ P := by
          apply List.mem_of_mem_filter (p := fun p => p.1 = N - 1)
          rw [hf]
          exact List.mem_singleton.2 rfl
        have hle := mem_le_foldl_max P 0 _ hmem
        rw [hzfst (N - 1) hn1] at hle
        omega
  unfold dynStitch
  rw [hpairs, hfold]
  have hcongr : (List.range N).filterMap
      (fun i => ((P.filter (fun p => p.1 = i)).getLast?).map Prod.snd)
      = (List.range N).filterMap (fun i => ys[i]?) := by
    apply List.filterMap_congr
    intro i hi
    have hiN : i < N := List.mem_range.1 hi
    have h1 : i < zs.length := by omega
    have h2 : i < ys.length := by omega
    rw [hfilter i hiN h1]
    rw [List.getElem?_eq_getElem h2]
    simp [hzs, List.getElem_zip]
  rw [hcongr]
  have hNys : N = ys.length := hlen.symm
  rw [hNys]
  exact filterMap_getElem?_range ys


theorem rowOKbAt_iff :
    ∀ (cs : List MeanFunction) (l : Int) (row : List Val),
      rowOKbAt cs l row = true ↔
        ∃ g : Nat, l = (g : Int) ∧ g < cs.length ∧
          rowOKb (cs.getD g (.Zero 0)) row = true := by
  intro cs
  induction cs with
  | nil =>
    intro l row
    simp [rowOKbAt]
  | cons c cs ih =>
    intro l row
    cases l with
    | ofNat n =>
      cases n with
      | zero =>
        simp only [rowOKbAt]
        constructor
        · intro h
          exact ⟨0, rfl, Nat.succ_pos _, h⟩
        · rintro ⟨g, hg, _, hok⟩
          have hg2 : ((0 : Nat) : Int) = (g : Int) := hg
          have hg0 : g = 0 := by exact_mod_cast hg2.symm
          subst hg0
          exact hok
      | succ n =>
        simp only [rowOKbAt]
        rw [ih (.ofNat n) row]
        constructor
        · rintro ⟨g, hg, hlt, hok⟩
          have hg2 : ((n : Nat) : Int) = (g : Int) := hg
          have hng : n = g := by exact_mod_cast hg2
          subst hng
          exact ⟨n + 1, rfl, by simpa using hlt, hok⟩
        · rintro ⟨g, hg, hlt, hok⟩
          cases g with
          | zero =>
            have hg2 : ((n + 1 : Nat) : Int) = ((0 : Nat) : Int) := hg
            have : (n + 1 : Nat) = 0 := by exact_mod_cast hg2
            omega
          | succ g' =>
            have hg2 : ((n + 1 : Nat) : Int) = ((g' + 1 : Nat) : Int) := hg
            have hng : n = g' := by
              have : (n + 1 : Nat) = g' + 1 := by exact_mod_cast hg2
              omega
            subst hng
            exact ⟨n, rfl, by simpa using hlt, hok⟩
    | negSucc n =>
      simp only [rowOKbAt]
      constructor
      · intro h; exact absurd h (by simp)
      · rintro ⟨g, hg, _, _⟩
        rw [Int.negSucc_eq] at hg
        omega

theorem rowOKb_switch (cs : List MeanFunction) (row : List Val) :
    rowOKb (.SwitchedMeanFunction cs) row =
      rowOKbAt cs (castToInt (row.getD (row.length - 1) 0)) (row.take (row.length - 1)) :=
  rfl

theorem rowOKb_additive (f g : MeanFunction) (row : List Val) :
    rowOKb (.Additive f g) row = (rowOKb f row && rowOKb g row) := rfl

theorem rowOKb_product (f g : MeanFunction) (row : List Val) :
    rowOKb (.Product f g) row = (rowOKb f row && rowOKb g row) := rfl

/-! ### Equation lemmas for `eval` -/

theorem eval_linear (A : Tensor2) (b : List Val) (X : Tensor2) :
    eval (.Linear A b) X =
      (matmul X A).bind (fun M => elemwise (· + ·) M ⟨b.length, [b]⟩) := by
  rw [eval]; rfl

theorem eval_identity (od : Option Nat) (X : Tensor2) :
    eval (.Identity od) X = some X := by
  rw [eval]

theorem eval_constant (c : List Val) (X : Tensor2) :
    eval (.Constant c) X = some ⟨c.length, List.replicate X.rows c⟩ := by
  rw [eval]

theorem eval_zero (q : Nat) (X : Tensor2) :
    eval (.Zero q) X = some ⟨q, List.replicate X.rows (List.replicate q 0)⟩ := by
  rw [eval]

theorem eval_additive (f g : MeanFunction) (X : Tensor2) :
    eval (.Additive f g) X =
      (eval f X).bind (fun yf => (eval g X).bind (fun yg => elemwise (· + ·) yf yg)) := by
  rw [eval]; rfl

theorem eval_product (f g : MeanFunction) (X : Tensor2) :
    eval (.Product f g) X =
      (eval f X).bind (fun yf => (eval g X).bind (fun yg => elemwise (· * ·) yf yg)) := by
  rw [eval]; rfl

theorem eval_switched (cs : List MeanFunction) (X : Tensor2) :
    eval (.SwitchedMeanFunction cs) X =
      (evalList cs ((dynPartition (switchFeatures X) (switchIndices X) cs.length).map
          (fun rs => (⟨X.cols - 1, rs⟩ : Tensor2)))).bind
        (fun results =>
          if results.all (fun t => t.cols = ((results.head?).map Tensor2.cols).getD 0) then
            some ⟨((results.head?).map Tensor2.cols).getD 0,
              dynStitch (dynPartition (List.range X.rows) (switchIndices X) cs.length)
                (results.map Tensor2.data)⟩
          else none) := by
  rw [eval]; rfl

theorem evalList_nil (xs : List Tensor2) : evalList [] xs = some [] := by
  rw [evalList]

theorem evalList_cons (c : MeanFunction) (cs : List MeanFunction) (x : Tensor2)
    (xs : List Tensor2) :
    evalList (c :: cs) (x :: xs) =
      (eval c x).bind (fun y => (evalList cs xs).bind (fun ys => some (y :: ys))) := by
  rw [evalList]; rfl

/-! ### Broadcasting and matmul lemmas -/


theorem adjCols_length (orig target : Nat) (v : List Val) (h : v.length = orig) :
    (adjCols orig target v).length = target := by
  unfold adjCols
  split
  · omega
  · simp

theorem bcastLen_self (a : Nat) : bcastLen a a = some a := by simp [bcastLen]

theorem bcastLen_one_right (n : Nat) : bcastLen n 1 = some n := by
  by_cases h : n = 1 <;> simp [bcastLen, h]

theorem bcastTo_map (c1 c : Nat) (rows : List (List Val)) :
    bcastTo ⟨c1, rows⟩ rows.length c = rows.map (adjCols c1 c) := by
  unfold bcastTo adjCols Tensor2.rows
  by_cases h : c1 = c
  · simp [h]
  · simp [h]

theorem bcastTo_bias (bl : Nat) (b : List Val) (N c : Nat) :
    bcastTo ⟨bl, [b]⟩ N c = List.replicate N (adjCols bl c b) := by
  unfold bcastTo adjCols Tensor2.rows
  by_cases hN : (1 : Nat) = N
  · subst hN
    by_cases hbc : bl = c <;> simp [hbc]
  · by_cases hbc : bl = c <;> simp [hbc, hN, List.map_replicate]

theorem matmul_eq_some (X A : Tensor2) (h : X.cols = A.rows) :
    matmul X A = some ⟨A.cols, X.data.map (mmRow A)⟩ := by
  simp [matmul, h]

theorem matmul_eq_none (X A : Tensor2) (h : X.cols ≠ A.rows) :
    matmul X A = none := by
  simp [matmul, h]

theorem mmRow_length (A : Tensor2) (row : List Val) : (mmRow A row).length = A.cols := by
  simp [mmRow]

theorem elemwise_maps (f : Val → Val → Val) (c1 c2 c : Nat) (l : List (List Val))
    (φ1 φ2 : List Val → List Val) (hc : bcastLen c1 c2 = some c) :
    elemwise f ⟨c1, l.map φ1⟩ ⟨c2, l.map φ2⟩ =
      some ⟨c, l.map (fun x =>
        List.zipWith f (adjCols c1 c (φ1 x)) (adjCols c2 c (φ2 x)))⟩ := by
  have hr : bcastLen (Tensor2.rows ⟨c1, l.map φ1⟩) (Tensor2.rows ⟨c2, l.map φ2⟩)
      = some l.length := by
    simp [Tensor2.rows, bcastLen_self]
  have hb1 : bcastTo ⟨c1, l.map φ1⟩ l.length c = (l.map φ1).map (adjCols c1 c) := by
    have := bcastTo_map c1 c (l.map φ1)
    simpa using this
  have hb2 : bcastTo ⟨c2, l.map φ2⟩ l.length c = (l.map φ2).map (adjCols c2 c) := by
    have := bcastTo_map c2 c (l.map φ2)
    simpa using this
  simp only [elemwise, hr, hc, Option.bind_eq_bind, Option.some_bind]
  rw [hb1, hb2, List.map_map, List.map_map]
  rw [zipWith_map_same]
  rfl

theorem elemwise_bias (f : Val → Val → Val) (c1 : Nat) (rows : List (List Val))
    (b : List Val) (c : Nat) (hc : bcastLen c1 b.length = some c) :
    elemwise f ⟨c1, rows⟩ ⟨b.length, [b]⟩ =
      some ⟨c, rows.map (fun row =>
        List.zipWith f (adjCols c1 c row) (adjCols b.length c b))⟩ := by
  have hr : bcastLen (Tensor2.rows ⟨c1, rows⟩) (Tensor2.rows ⟨b.length, [b]⟩)
      = some rows.length := by
    simp [Tensor2.rows, bcastLen_one_right]
  have hb1 : bcastTo ⟨c1, rows⟩ rows.length c = rows.map (adjCols c1 c) :=
    bcastTo_map c1 c rows
  have hb2 : bcastTo ⟨b.length, [b]⟩ rows.length c
      = List.replicate rows.length (adjCols b.length c b) :=
    bcastTo_bias b.length b rows.length c
  simp only [elemwise, hr, hc, Option.bind_eq_bind, Option.some_bind]
  rw [hb1, hb2]
  rw [zipWith_map_replicate (List.zipWith f) (adjCols c1 c) (adjCols b.length c b) rows]

theorem elemwise_same_shape (f : Val → Val → Val) (t u : Tensor2)
    (hr : t.rows = u.rows) (hc : t.cols = u.cols) :
    elemwise f t u = some ⟨t.cols, List.zipWith (List.zipWith f) t.data u.data⟩ := by
  have h1 : bcastLen t.rows u.rows = some t.rows := by rw [hr, bcastLen_self]
  have h2 : bcastLen t.cols u.cols = some t.cols := by rw [hc, bcastLen_self]
  have hb1 : bcastTo t t.rows t.cols = t.data := by
    simp [bcastTo]
  have hb2 : bcastTo u t.rows t.cols = u.data := by
    simp [bcastTo, hr, hc]
  simp only [elemwise, h1, h2, Option.bind_eq_bind, Option.some_bind]
  rw [hb1, hb2]

theorem elemwise_none_of_cols (f : Val → Val → Val) (t u : Tensor2)
    (h1 : t.cols ≠ u.cols) (h2 : t.cols ≠ 1) (h3 : u.cols ≠ 1) :
    elemwise f t u = none := by
  have hcols : bcastLen t.cols u.cols = none := by simp [bcastLen, h1, h2, h3]
  cases hb : bcastLen t.rows u.rows <;> simp [elemwise, hb, hcols]

/-! ### Row-wise semantics -/


/-! ### `evalList` lemmas -/

theorem evalList_isSome_get :
    ∀ (cs : List MeanFunction) (xs : List Tensor2) (rs : List Tensor2),
      evalList cs xs = some rs →
      ∀ (g : Nat) (h1 : g < cs.length) (h2 : g < xs.length),
        ∃ z, eval (cs.get ⟨g, h1⟩) (xs.get ⟨g, h2⟩) = some z
  | [], _, _, _, g, h1, _ => absurd h1 (by simp)
  | _ :: _, [], _, _, _, _, h2 => absurd h2 (by simp)
  | c :: cs, x :: xs, rs, hev, g, h1, h2 => by
    rw [evalList_cons] at hev
    cases hy : eval c x with
    | none => rw [hy] at hev; exact absurd hev (by simp)
    | some y =>
      rw [hy] at hev
      cases hys : evalList cs xs with
      | none => rw [hys] at hev; exact absurd hev (by simp)
      | some ys =>
        cases g with
        | zero => exact ⟨y, hy⟩
        | succ g' =>
          exact evalList_isSome_get cs xs ys hys g' (by simpa using h1) (by simpa using h2)

theorem evalList_eq_none :
    ∀ (cs : List MeanFunction) (xs : List Tensor2) (g : Nat)
      (h1 : g < cs.length) (h2 : g < xs.length),
      eval (cs.get ⟨g, h1⟩) (xs.get ⟨g, h2⟩) = none → evalList cs xs = none
  | c :: cs, x :: xs, g, h1, h2, hfail => by
    rw [evalList_cons]
    cases g with
    | zero =>
      have hf : eval c x = none := hfail
      rw [hf]
      rfl
    | succ g' =>
      cases hy : eval c x with
      | none => rfl
      | some y =>
        rw [evalList_eq_none cs xs g' (by simpa using h1) (by simpa using h2) hfail]
        rfl

/-! ### The switch node: partitions and their evaluation -/


theorem switchIndices_length (X : Tensor2) : (switchIndices X).length = X.data.length := by
  simp [switchIndices]

theorem switchFeatures_length (X : Tensor2) :
    (switchFeatures X).length = X.data.length := by
  simp [switchFeatures]

/-- The tensor list passed to the children inside `eval` is exactly the
list of partition tensors. -/
theorem switch_arg_eq (X : Tensor2) (k : Nat) :
    (dynPartition (switchFeatures X) (switchIndices X) k).map
      (fun rs => (⟨X.cols - 1, rs⟩ : Tensor2)) =
      (List.range k).map (fun g => partTensor X g) := by
  rw [dynPartition_eq, List.map_map]
  rfl

/-- Every label extracted from a row that satisfies `rowOKb` lies in
`[0, K)`. -/
theorem switch_labels_range (cs : List MeanFunction) (X : Tensor2) (hwf : X.wf)
    (hrow : ∀ row ∈ X.data, rowOKb (.SwitchedMeanFunction cs) row = true) :
    ∀ l ∈ switchIndices X, ∃ g : Nat, g < cs.length ∧ l = (g : Int) := by
  intro l hl
  rcases List.mem_map.1 hl with ⟨row, hrowmem, rfl⟩
  have hok := hrow row hrowmem
  rw [rowOKb_switch] at hok
  rcases (rowOKbAt_iff cs _ _).1 hok with ⟨g, hlab, hlt, _⟩
  refine ⟨g, hlt, ?_⟩
  rw [← hlab, hwf row hrowmem]

/-- The partition tensors are well-formed, have the feature width, and
carry only rows that are valid for the corresponding child. -/
theorem partTensor_conditions (cs : List MeanFunction) (X : Tensor2) (hwf : X.wf)
    (hrow : ∀ row ∈ X.data, rowOKb (.SwitchedMeanFunction cs) row = true) (g : Nat) :
    (partTensor X g).wf ∧ (partTensor X g).cols = X.cols - 1 ∧
      ∀ r ∈ (partTensor X g).data, rowOKb (cs.getD g (.Zero 0)) r = true := by
  refine ⟨?_, rfl, ?_⟩
  · intro r hr
    have hr2 : r ∈ switchFeatures X :=
      (partOne_sublist (switchIndices X) (switchFeatures X) g).subset hr
    rcases List.mem_map.1 hr2 with ⟨row, hrowmem, rfl⟩
    have := hwf row hrowmem
    simp [partTensor, List.length_take]
    omega
  · intro r hr
    obtain ⟨j, hj1, hj2, hgj, hpj⟩ :=
      (mem_partOne_iff (switchIndices X) (switchFeatures X) g r).1 hr
    have hj3 : j < X.data.length := by
      rw [switchIndices_length] at hj1; exact hj1
    have hindj : (switchIndices X)[j] = castToInt ((X.data[j]).getD (X.cols - 1) 0) := by
      simp [switchIndices]
    have hfeatj : (switchFeatures X)[j] = (X.data[j]).take (X.cols - 1) := by
      simp [switchFeatures]
    have hmem : X.data[j] ∈ X.data := List.getElem_mem _
    have hok := hrow _ hmem
    rw [rowOKb_switch] at hok
    rcases (rowOKbAt_iff cs _ _).1 hok with ⟨g', hlab, hlt, hok2⟩
    have hlen : (X.data[j]).length = X.cols := hwf _ hmem
    rw [hlen] at hlab hok2
    have hgg : g' = g := by
      have h1 : castToInt ((X.data[j]).getD (X.cols - 1) 0) = (g' : Int) := hlab
      have h2 : castToInt ((X.data[j]).getD (X.cols - 1) 0) = (g : Int) := by
        rw [← hindj]; exact hgj

      have := h1.symm.trans h2
      exact_mod_cast this
    subst hgg
    rw [← hpj, hfeatj]
    exact hok2

/-- Evaluating the children on the partition list succeeds child by child
when every child has a row spec on its partition. -/
theorem evalList_map_range :
    ∀ (cs : List MeanFunction) (d' : Nat) (T : Nat → Tensor2) (Q : Nat → Nat)
      (Φ : Nat → List Val → List Val),
      (∀ (g : Nat) (h : g < cs.length), RowSpec (cs.get ⟨g, h⟩) d' (Q g) (Φ g)) →
      (∀ (g : Nat), g < cs.length → (T g).wf ∧ (T g).cols = d' ∧
        ∀ row ∈ (T g).data, rowOKb (cs.getD g (.Zero 0)) row = true) →
      evalList cs ((List.range cs.length).map T) =
        some ((List.range cs.length).map (fun g => ⟨Q g, (T g).data.map (Φ g)⟩))
  | [], _, _, _, _, _, _ => by simp [evalList_nil]
  | c :: cs, d', T, Q, Φ, hspec, hcond => by
    have hlen : (c :: cs).length = cs.length + 1 := rfl
    rw [hlen, List.range_succ_eq_map, List.map_cons, List.map_cons, evalList_cons]
    have h0 : eval c (T 0) = some ⟨Q 0, (T 0).data.map (Φ 0)⟩ := by
      have hc0 := hcond 0 (Nat.succ_pos _)
      exact (hspec 0 (Nat.succ_pos _)).2 (T 0) hc0.1 hc0.2.1 (by
        intro row hrmem
        exact hc0.2.2 row hrmem)
    rw [h0]
    have hrest : evalList cs ((List.range cs.length).map (fun g => T (g + 1))) =
        some ((List.range cs.length).map (fun g => ⟨Q (g + 1), (T (g + 1)).data.map (Φ (g + 1))⟩)) := by
      refine evalList_map_range cs d' (fun g => T (g + 1)) (fun g => Q (g + 1))
        (fun g => Φ (g + 1)) ?_ ?_
      · intro g h
        exact hspec (g + 1) (by simpa using h)
      · intro g h
        exact hcond (g + 1) (by simpa using h)
    have hmm : List.map T (List.map Nat.succ (List.range cs.length)) =
        (List.range cs.length).map (fun g => T (g + 1)) := by
      rw [List.map_map]; rfl
    rw [hmm, hrest]
    simp only [Option.some_bind, Option.bind_eq_bind]
    congr 1
    rw [List.map_map]
    rfl

/-- Full evaluation of a switch node when every child has a row spec of a
common output width: partition, evaluate, stitch — producing, in the
original row order, each row's child applied to its feature part. -/
theorem switched_eval_of_specs (cs : List MeanFunction) (d' : Nat) (Q : Nat → Nat)
    (Φ : Nat → List Val → List Val)
    (hspec : ∀ (g : Nat) (h : g < cs.length), RowSpec (cs.get ⟨g, h⟩) d' (Q g) (Φ g))
    (hQ : ∀ g, g < cs.length → Q g = Q 0)
    (hK : 0 < cs.length)
    (X : Tensor2) (hwf : X.wf) (hcols : X.cols - 1 = d')
    (hrow : ∀ row ∈ X.data, rowOKb (.SwitchedMeanFunction cs) row = true) :
    eval (.SwitchedMeanFunction cs) X =
      some ⟨Q 0, X.data.map (fun row =>
        Φ (castToInt (row.getD d' 0)).toNat (row.take d'))⟩ := by
  have hT : ∀ (g : Nat), g < cs.length → (partTensor X g).wf ∧ (partTensor X g).cols = d' ∧
      ∀ row ∈ (partTensor X g).data, rowOKb (cs.getD g (.Zero 0)) row = true := by
    intro g _
    have h := partTensor_conditions cs X hwf hrow g
    exact ⟨h.1, by rw [h.2.1, hcols], h.2.2⟩
  rw [eval_switched, switch_arg_eq]
  rw [evalList_map_range cs d' (fun g => partTensor X g) Q Φ hspec hT]
  simp only [Option.bind_eq_bind, Option.some_bind]
  obtain ⟨k, hk⟩ := Nat.exists_eq_succ_of_ne_zero (Nat.pos_iff_ne_zero.1 hK)
  have hhead : ((List.range cs.length).map
        (fun g => (⟨Q g, (partTensor X g).data.map (Φ g)⟩ : Tensor2))).head?
      = some ⟨Q 0, (partTensor X 0).data.map (Φ 0)⟩ := by
    rw [hk, List.range_succ_eq_map]
    rfl
  rw [hhead]
  simp only [Option.map_some', Option.getD_some]
  have hall : ((List.range cs.length).map
        (fun g => (⟨Q g, (partTensor X g).data.map (Φ g)⟩ : Tensor2))).all
      (fun t => t.cols = Tensor2.cols ⟨Q 0, (partTensor X 0).data.map (Φ 0)⟩) = true := by
    rw [List.all_eq_true]
    intro t ht
    rcases List.mem_map.1 ht with ⟨g, hg, rfl⟩
    simp [hQ g (List.mem_range.1 hg)]
  rw [if_pos hall]
  have hyslen : (List.zipWith (fun (l : Int) x => Φ l.toNat x)
      (switchIndices X) (switchFeatures X)).length = (switchIndices X).length := by
    rw [List.length_zipWith, switchIndices_length, switchFeatures_length]
    simp
  have hdata : ((List.range cs.length).map
        (fun g => (⟨Q g, (partTensor X g).data.map (Φ g)⟩ : Tensor2))).map Tensor2.data
      = dynPartition (List.zipWith (fun (l : Int) x => Φ l.toNat x)
          (switchIndices X) (switchFeatures X)) (switchIndices X) cs.length := by
    rw [List.map_map, dynPartition_eq]
    have hfun : (Tensor2.data ∘ fun g =>
          (⟨Q g, (partTensor X g).data.map (Φ g)⟩ : Tensor2))
        = fun g => partOne (switchIndices X)
            (List.zipWith (fun (l : Int) x => Φ l.toNat x)
              (switchIndices X) (switchFeatures X)) g := by
      funext g
      have := partOne_label_apply (fun (l : Int) x => Φ l.toNat x)
        (switchIndices X) (switchFeatures X) g
      rw [Function.comp]
      rw [this]
      simp [partTensor]
    rw [hfun]
  rw [hdata]
  have hrw : X.rows = (switchIndices X).length := (switchIndices_length X).symm
  rw [hrw]
  rw [stitch_partition (switchIndices X) _ cs.length hyslen
    (switch_labels_range cs X hwf hrow)]
  have hys : List.zipWith (fun (l : Int) x => Φ l.toNat x)
      (switchIndices X) (switchFeatures X)
      = X.data.map (fun row => Φ (castToInt (row.getD d' 0)).toNat (row.take d')) := by
    unfold switchIndices switchFeatures
    rw [zipWith_map_same]
    rw [hcols]
  rw [hys]

/-- When two children have different output widths, the stitch step's shape
check fails and the whole switched evaluation fails. -/
theorem switched_eval_none_of_unequal (cs : List MeanFunction) (d' : Nat) (Q : Nat → Nat)
    (Φ : Nat → List Val → List Val)
    (hspec : ∀ (g : Nat) (h : g < cs.length), RowSpec (cs.get ⟨g, h⟩) d' (Q g) (Φ g))
    (g0 : Nat) (hg0 : g0 < cs.length) (hne : Q g0 ≠ Q 0)
    (X : Tensor2) (hwf : X.wf) (hcols : X.cols - 1 = d')
    (hrow : ∀ row ∈ X.data, rowOKb (.SwitchedMeanFunction cs) row = true) :
    eval (.SwitchedMeanFunction cs) X = none := by
  have hT : ∀ (g : Nat), g < cs.length → (partTensor X g).wf ∧ (partTensor X g).cols = d' ∧
      ∀ row ∈ (partTensor X g).data, rowOKb (cs.getD g (.Zero 0)) row = true := by
    intro g _
    have h := partTensor_conditions cs X hwf hrow g
    exact ⟨h.1, by rw [h.2.1, hcols], h.2.2⟩
  rw [eval_switched, switch_arg_eq]
  rw [evalList_map_range cs d' (fun g => partTensor X g) Q Φ hspec hT]
  simp only [Option.bind_eq_bind, Option.some_bind]
  obtain ⟨k, hk⟩ := Nat.exists_eq_succ_of_ne_zero (Nat.pos_iff_ne_zero.1
    (lt_of_le_of_lt (Nat.zero_le _) hg0))
  have hhead : ((List.range cs.length).map
        (fun g => (⟨Q g, (partTensor X g).data.map (Φ g)⟩ : Tensor2))).head?
      = some ⟨Q 0, (partTensor X 0).data.map (Φ 0)⟩ := by
    rw [hk, List.range_succ_eq_map]
    rfl
  rw [hhead]
  simp only [Option.map_some', Option.getD_some]
  rw [if_neg]
  intro hall
  rw [List.all_eq_true] at hall
  have hmem : (⟨Q g0, (partTensor X g0).data.map (Φ g0)⟩ : Tensor2) ∈
      (List.range cs.length).map
        (fun g => (⟨Q g, (partTensor X g).data.map (Φ g)⟩ : Tensor2)) :=
    List.mem_map.2 ⟨g0, List.mem_range.2 hg0, rfl⟩
  have := hall _ hmem
  simp at this
  exact hne this

theorem elemwise_none_of_bcastLen (f : Val → Val → Val) (t u : Tensor2)
    (h : bcastLen t.cols u.cols = none) : elemwise f t u = none := by
  cases hb : bcastLen t.rows u.rows <;> simp [elemwise, hb, h]

/-- Either some child always fails at width `d`, or all children have row
specs, collected into indexing functions. -/
theorem specs_choice (cs : List MeanFunction) (d : Nat)
    (IH : ∀ c ∈ cs, AlwaysFails c d ∨ ∃ q φ, RowSpec c d q φ) :
    (∃ g, ∃ h : g < cs.length, AlwaysFails (cs.get ⟨g, h⟩) d)
    ∨ (∃ Q : Nat → Nat, ∃ Φ : Nat → List Val → List Val,
        ∀ (g : Nat) (h : g < cs.length), RowSpec (cs.get ⟨g, h⟩) d (Q g) (Φ g)) := by
  induction cs with
  | nil =>
    right
    exact ⟨fun _ => 0, fun _ _ => [], fun g h => absurd h (by simp)⟩
  | cons c t ih =>
    rcases IH c (List.mem_cons_self _ _) with hfail | ⟨q, φ, hspec⟩
    · exact Or.inl ⟨0, Nat.succ_pos _, hfail⟩
    · rcases ih (fun c' hc' => IH c' (List.mem_cons_of_mem _ hc')) with
        ⟨g, h, hfail⟩ | ⟨Q, Φ, hQ⟩
      · exact Or.inl ⟨g + 1, by simpa using h, hfail⟩
      · right
        refine ⟨fun n => Nat.casesOn n q Q, fun n => Nat.casesOn n φ Φ, ?_⟩
        intro g h
        cases g with
        | zero => exact hspec
        | succ g' => exact hQ g' (by simpa using h)

/-- Shared dichotomy argument for the two elementwise combinators. -/
theorem dichotomy_combine (d : Nat) (f g : MeanFunction) (op : Val → Val → Val)
    (mk : MeanFunction → MeanFunction → MeanFunction)
    (hev : ∀ X, eval (mk f g) X =
      (eval f X).bind (fun yf => (eval g X).bind (fun yg => elemwise op yf yg)))
    (hro : ∀ row, rowOKb (mk f g) row = (rowOKb f row && rowOKb g row))
    (IHf : AlwaysFails f d ∨ ∃ q φ, RowSpec f d q φ)
    (IHg : AlwaysFails g d ∨ ∃ q φ, RowSpec g d q φ) :
    AlwaysFails (mk f g) d ∨ ∃ q φ, RowSpec (mk f g) d q φ := by
  have hrowf : ∀ X : Tensor2, (∀ row ∈ X.data, rowOKb (mk f g) row = true) →
      ∀ row ∈ X.data, rowOKb f row = true := by
    intro X h row hr
    have hh := h row hr
    rw [hro, Bool.and_eq_true] at hh
    exact hh.1
  have hrowg : ∀ X : Tensor2, (∀ row ∈ X.data, rowOKb (mk f g) row = true) →
      ∀ row ∈ X.data, rowOKb g row = true := by
    intro X h row hr
    have hh := h row hr
    rw [hro, Bool.and_eq_true] at hh
    exact hh.2
  rcases IHf with hf | ⟨q1, φ1, hs1⟩
  · left
    intro X hwf hcols hrow
    rw [hev, hf X hwf hcols (hrowf X hrow)]
    rfl
  rcases IHg with hg | ⟨q2, φ2, hs2⟩
  · left
    intro X hwf hcols hrow
    rw [hev, hs1.2 X hwf hcols (hrowf X hrow), hg X hwf hcols (hrowg X hrow)]
    rfl
  cases hc : bcastLen q1 q2 with
  | none =>
    left
    intro X hwf hcols hrow
    rw [hev, hs1.2 X hwf hcols (hrowf X hrow), hs2.2 X hwf hcols (hrowg X hrow)]
    simp only [Option.bind_eq_bind, Option.some_bind]
    exact elemwise_none_of_bcastLen op _ _ hc
  | some cc =>
    right
    refine ⟨cc, fun row => List.zipWith op (adjCols q1 cc (φ1 row))
      (adjCols q2 cc (φ2 row)), ?_, ?_⟩
    · intro row hlen hok
      rw [hro, Bool.and_eq_true] at hok
      rw [List.length_zipWith, adjCols_length _ _ _ (hs1.1 row hlen hok.1),
        adjCols_length _ _ _ (hs2.1 row hlen hok.2)]
      simp
    · intro X hwf hcols hrow
      rw [hev, hs1.2 X hwf hcols (hrowf X hrow), hs2.2 X hwf hcols (hrowg X hrow)]
      simp only [Option.bind_eq_bind, Option.some_bind]
      exact elemwise_maps op q1 q2 cc X.data φ1 φ2 hc

/-- The central dichotomy, by strong induction on the size of the tree:
at any input width, a mean function either fails on every valid
well-formed input, or acts as a fixed per-row function of fixed width. -/
theorem eval_dichotomy_aux :
    ∀ (n : Nat) (m : MeanFunction), sizeOf m ≤ n → ∀ d : Nat,
      AlwaysFails m d ∨ ∃ q φ, RowSpec m d q φ := by
  intro n
  induction n with
  | zero =>
    intro m h
    exfalso
    cases m <;> simp_arith at h
  | succ n ih =>
    intro m hm d
    cases m with
    | Identity od =>
      right
      refine ⟨d, fun row => row, ?_, ?_⟩
      · intro row hlen _
        exact hlen
      · intro X hwf hcols hrow
        rw [eval_identity]
        have hx : X = ⟨d, X.data.map (fun row => row)⟩ := by
          cases X with
          | mk co da =>
            have hco : co = d := hcols
            subst hco
            simp
        rw [← hx]
    | Constant c =>
      right
      refine ⟨c.length, fun _ => c, ?_, ?_⟩
      · intro _ _ _
        rfl
      · intro X hwf hcols hrow
        rw [eval_constant]
        have hmc : X.data.map (fun _ => c) = List.replicate X.rows c :=
          List.map_const X.data c
        rw [hmc]
    | Zero q =>
      right
      refine ⟨q, fun _ => List.replicate q 0, ?_, ?_⟩
      · intro _ _ _
        simp
      · intro X hwf hcols hrow
        rw [eval_zero]
        have hmc : X.data.map (fun _ => List.replicate q (0 : Val))
            = List.replicate X.rows (List.replicate q (0 : Val)) :=
          List.map_const X.data (List.replicate q (0 : Val))
        exact congrArg (fun ds => some (Tensor2.mk q ds)) hmc.symm
    | Linear A b =>
      by_cases hd : d = A.rows
      · cases hc : bcastLen A.cols b.length with
        | none =>
          left
          intro X hwf hcols hrow
          rw [eval_linear, matmul_eq_some X A (by rw [hcols, hd])]
          simp only [Option.bind_eq_bind, Option.some_bind]
          exact elemwise_none_of_bcastLen _ _ _ hc
        | some cc =>
          right
          refine ⟨cc, fun row => List.zipWith (· + ·)
            (adjCols A.cols cc (mmRow A row)) (adjCols b.length cc b), ?_, ?_⟩
          · intro row _ _
            rw [List.length_zipWith, adjCols_length _ _ _ (mmRow_length A row),
              adjCols_length _ _ _ rfl]
            simp
          · intro X hwf hcols hrow
            rw [eval_linear, matmul_eq_some X A (by rw [hcols, hd])]
            simp only [Option.bind_eq_bind, Option.some_bind]
            rw [elemwise_bias (· + ·) A.cols (X.data.map (mmRow A)) b cc hc]
            rw [List.map_map]
            rfl
      · left
        intro X hwf hcols hrow
        rw [eval_linear, matmul_eq_none X A (by rw [hcols]; exact hd)]
        rfl
    | Additive f g =>
      have hsf : sizeOf f ≤ n := by simp_arith at hm; omega
      have hsg : sizeOf g ≤ n := by simp_arith at hm; omega
      exact dichotomy_combine d f g (· + ·) .Additive (fun X => eval_additive f g X)
        (fun row => rowOKb_additive f g row) (ih f hsf d) (ih g hsg d)
    | Product f g =>
      have hsf : sizeOf f ≤ n := by simp_arith at hm; omega
      have hsg : sizeOf g ≤ n := by simp_arith at hm; omega
      exact dichotomy_combine d f g (· * ·) .Product (fun X => eval_product f g X)
        (fun row => rowOKb_product f g row) (ih f hsf d) (ih g hsg d)
    | SwitchedMeanFunction cs =>
      have hchild : ∀ c ∈ cs, AlwaysFails c (d - 1) ∨ ∃ q φ, RowSpec c (d - 1) q φ := by
        intro c hc
        refine ih c ?_ (d - 1)
        have h1 : sizeOf c < sizeOf cs := List.sizeOf_lt_of_mem hc
        simp_arith at hm
        omega
      rcases specs_choice cs (d - 1) hchild with ⟨g, h, hfail⟩ | ⟨Q, Φ, hspec⟩
      · left
        intro X hwf hcols hrow
        rw [eval_switched, switch_arg_eq]
        have hcond := partTensor_conditions cs X hwf hrow g
        have hfailg : eval (cs.get ⟨g, h⟩) (partTensor X g) = none := by
          refine hfail (partTensor X g) hcond.1 ?_ ?_
          · rw [hcond.2.1, hcols]
          · intro r hr
            have hc2 := hcond.2.2 r hr
            rw [List.getD_eq_getElem _ _ h] at hc2
            exact hc2
        have hxlen : g < ((List.range cs.length).map (fun g => partTensor X g)).length := by
          simpa using h
        have hxget : ((List.range cs.length).map (fun g => partTensor X g)).get ⟨g, hxlen⟩
            = partTensor X g := by
          rw [List.get_eq_getElem, List.getElem_map, List.getElem_range]
        rw [evalList_eq_none cs _ g h hxlen (by rw [hxget]; exact hfailg)]
        rfl
      · by_cases hK0 : cs.length = 0
        · right
          refine ⟨0, fun _ => [], ?_, ?_⟩
          · intro row _ hok
            exfalso
            have hcs : cs = [] := List.length_eq_zero.1 hK0
            subst hcs
            rw [rowOKb_switch] at hok
            simp [rowOKbAt] at hok
          · intro X hwf hcols hrow
            have hcs : cs = [] := List.length_eq_zero.1 hK0
            subst hcs
            have hdata : X.data = [] := by
              cases hX : X.data with
              | nil => rfl
              | cons r t =>
                have hr := hrow r (by rw [hX]; exact List.mem_cons_self _ _)
                rw [rowOKb_switch] at hr
                simp [rowOKbAt] at hr
            cases X with
            | mk co da =>
              have hda : da = [] := hdata
              subst hda
              rfl
        · by_cases hQeq : ∀ g, g < cs.length → Q g = Q 0
          · right
            refine ⟨Q 0, fun row => Φ (castToInt (row.getD (row.length - 1) 0)).toNat
                (row.take (row.length - 1)), ?_, ?_⟩
            · intro row hlen hok
              show (Φ (castToInt (row.getD (row.length - 1) 0)).toNat
                (row.take (row.length - 1))).length = Q 0
              rw [rowOKb_switch] at hok
              rcases (rowOKbAt_iff cs _ _).1 hok with ⟨g, hlab, hlt, hok2⟩
              rw [hlab, Int.toNat_natCast]
              have hsp := hspec g hlt
              have htake : (row.take (row.length - 1)).length = d - 1 := by
                rw [List.length_take]
                omega
              have hok3 : rowOKb (cs.get ⟨g, hlt⟩) (row.take (row.length - 1)) = true := by
                rw [List.getD_eq_getElem _ _ hlt] at hok2
                exact hok2
              rw [hsp.1 _ htake hok3]
              exact hQeq g hlt
            · intro X hwf hcols hrow
              have hres := switched_eval_of_specs cs (d - 1) Q Φ hspec hQeq
                (Nat.pos_of_ne_zero hK0) X hwf (by rw [hcols]) hrow
              rw [hres]
              have hmap : X.data.map (fun row =>
                    Φ (castToInt (row.getD (d - 1) 0)).toNat (row.take (d - 1)))
                  = X.data.map (fun row =>
                    Φ (castToInt (row.getD (row.length - 1) 0)).toNat
                      (row.take (row.length - 1))) := by
                apply List.map_congr_left
                intro row hrmem
                have hrl : row.length = d := by rw [hwf row hrmem, hcols]
                rw [hrl]
              rw [hmap]
          · left
            push_neg at hQeq
            obtain ⟨g0, hg0, hne⟩ := hQeq
            intro X hwf hcols hrow
            exact switched_eval_none_of_unequal cs (d - 1) Q Φ hspec g0 hg0 hne X hwf
              (by rw [hcols]) hrow

/-- The dichotomy at the tree's own size. -/
theorem eval_dichotomy (m : MeanFunction) (d : Nat) :
    AlwaysFails m d ∨ ∃ q φ, RowSpec m d q φ :=
  eval_dichotomy_aux (sizeOf m) m (le_refl _) d

/-- A child that fails on its partition (possibly the empty one) fails the
whole switched evaluation. -/
theorem switched_eval_none_of_child_fails (cs : List MeanFunction) (d' : Nat) (g : Nat)
    (h : g < cs.length) (hfail : AlwaysFails (cs.get ⟨g, h⟩) d')
    (X : Tensor2) (hwf : X.wf) (hcols : X.cols - 1 = d')
    (hrow : ∀ row ∈ X.data, rowOKb (.SwitchedMeanFunction cs) row = true) :
    eval (.SwitchedMeanFunction cs) X = none := by
  rw [eval_switched, switch_arg_eq]
  have hcond := partTensor_conditions cs X hwf hrow g
  have hfailg : eval (cs.get ⟨g, h⟩) (partTensor X g) = none := by
    refine hfail (partTensor X g) hcond.1 ?_ ?_
    · rw [hcond.2.1]
      exact hcols
    · intro r hr
      have hc2 := hcond.2.2 r hr
      rw [List.getD_eq_getElem _ _ h] at hc2
      exact hc2
  have hxlen : g < ((List.range cs.length).map (fun g => partTensor X g)).length := by
    simpa using h
  have hxget : ((List.range cs.length).map (fun g => partTensor X g)).get ⟨g, hxlen⟩
      = partTensor X g := by
    rw [List.get_eq_getElem, List.getElem_map, List.getElem_range]
  rw [evalList_eq_none cs _ g h hxlen (by rw [hxget]; exact hfailg)]
  rfl


/-! ### The claims -/

/-- Claim C2: for X with N rows and D columns and Linear with A of shape
D × Q and b of length Q, evaluation returns X·A broadcast-added with b —
an (N, Q) tensor whose row i is X[i]·A + b — and fails with a
dimension-mismatch error when X's column count differs from A's row
count. -/
theorem claim2_linear (A : Tensor2) (b : List Val) (X : Tensor2)
    (hAwf : A.wf) (hXwf : X.wf) :
    (X.cols = A.rows → b.length = A.cols →
      eval (.Linear A b) X =
        some ⟨A.cols, X.data.map (fun row => List.zipWith (· + ·) (mmRow A row) b)⟩) ∧
    (X.cols ≠ A.rows → eval (.Linear A b) X = none) := by
  constructor
  · intro hD hb
    rw [eval_linear, matmul_eq_some X A hD]
    simp only [Option.bind_eq_bind, Option.some_bind]
    have hc : bcastLen A.cols b.length = some A.cols := by
      rw [hb, bcastLen_self]
    rw [elemwise_bias (· + ·) A.cols (X.data.map (mmRow A)) b A.cols hc]
    rw [List.map_map]
    have ha1 : adjCols A.cols A.cols = fun v => v := by
      funext v
      simp [adjCols]
    have ha2 : adjCols b.length A.cols b = b := by
      simp [adjCols, hb]
    rw [ha1, ha2]
    rfl
  · intro hD
    rw [eval_linear, matmul_eq_none X A hD]
    rfl

/-- Claim C2 witness: a concrete 3 × 2 linear map with bias applied to one
row, and a dimension-mismatched input that fails. -/
theorem claim2_witness :
    eval (.Linear ⟨2, [[1, 0], [0, 1], [1, 1]]⟩ [10, 20]) ⟨3, [[1, 2, 3]]⟩
      = some ⟨2, [[14, 25]]⟩ ∧
    eval (.Linear ⟨2, [[1, 0], [0, 1], [1, 1]]⟩ [10, 20]) ⟨2, [[1, 2]]⟩ = none := by
  constructor
  · have h := (claim2_linear ⟨2, [[1, 0], [0, 1], [1, 1]]⟩ [10, 20] ⟨3, [[1, 2, 3]]⟩
      (by decide) (by decide)).1 rfl rfl
    rw [h]
    norm_num [mmRow, matCol, dot, List.range_succ]
  · exact (claim2_linear ⟨2, [[1, 0], [0, 1], [1, 1]]⟩ [10, 20] ⟨2, [[1, 2]]⟩
      (by decide) (by decide)).2 (by decide)

/-- Claim C5 counterexample: with differing output column counts 2 and 1,
`Additive` and `Product` do not fail — broadcasting applies and a result
is returned, refuting the claim as stated. -/
theorem claim5_counterexample :
    eval (.Constant [1, 2]) ⟨1, [[0]]⟩ = some ⟨2, [[1, 2]]⟩ ∧
    eval (.Constant [5]) ⟨1, [[0]]⟩ = some ⟨1, [[5]]⟩ ∧
    (2 : Nat) ≠ 1 ∧
    eval (.Additive (.Constant [1, 2]) (.Constant [5])) ⟨1, [[0]]⟩ = some ⟨2, [[6, 7]]⟩ ∧
    eval (.Product (.Constant [1, 2]) (.Constant [5])) ⟨1, [[0]]⟩ = some ⟨2, [[5, 10]]⟩ := by
  refine ⟨by decide, by decide, by decide, ?_, ?_⟩
  · rw [eval_additive, eval_constant, eval_constant]
    norm_num [elemwise, bcastLen, bcastTo, Tensor2.rows, List.replicate_succ]
  · rw [eval_product, eval_constant, eval_constant]
    norm_num [elemwise, bcastLen, bcastTo, Tensor2.rows, List.replicate_succ]

/-- Claim C5 (amended): when the two children produce outputs with
differing column counts and neither count is 1 (so broadcasting cannot
apply), `Additive` and `Product` fail at evaluation time. -/
theorem claim5_amended (f g : MeanFunction) (X Yf Yg : Tensor2)
    (hf : eval f X = some Yf) (hg : eval g X = some Yg)
    (hne : Yf.cols ≠ Yg.cols) (h1 : Yf.cols ≠ 1) (h2 : Yg.cols ≠ 1) :
    eval (.Additive f g) X = none ∧ eval (.Product f g) X = none := by
  constructor
  · rw [eval_additive, hf, hg]
    simp only [Option.bind_eq_bind, Option.some_bind]
    exact elemwise_none_of_cols _ _ _ hne h1 h2
  · rw [eval_product, hf, hg]
    simp only [Option.bind_eq_bind, Option.some_bind]
    exact elemwise_none_of_cols _ _ _ hne h1 h2

/-- Claim C5 witness: column counts 2 and 3 make both combinators fail. -/
theorem claim5_witness :
    eval (.Additive (.Constant [1, 2]) (.Constant [3, 4, 5])) ⟨1, [[0]]⟩ = none ∧
    eval (.Product (.Constant [1, 2]) (.Constant [3, 4, 5])) ⟨1, [[0]]⟩ = none :=
  claim5_amended (.Constant [1, 2]) (.Constant [3, 4, 5]) ⟨1, [[0]]⟩
    ⟨2, [[1, 2]]⟩ ⟨3, [[3, 4, 5]]⟩ (by decide) (by decide) (by decide) (by decide) (by decide)

/-- Claim C6: Identity evaluation returns the input tensor itself,
exactly and unchanged, whether or not `input_dim` was set. -/
theorem claim6_identity_eval (od : Option Nat) (X : Tensor2) :
    eval (.Identity od) X = some X :=
  eval_identity od X

/-- Claim C7: reading Identity's `A` or `b` raises the descriptive
configuration error exactly when `input_dim` is unset; with
`input_dim = d` set, `A` reads as the d × d identity matrix and `b` as
the zero vector of length d. -/
theorem claim7_identity_props (od : Option Nat) :
    ((∃ e, identityA od = .error e) ↔ od = none) ∧
    ((∃ e, identityB od = .error e) ↔ od = none) ∧
    (identityA od = .error identityErrMsg ↔ od = none) ∧
    (identityB od = .error identityErrMsg ↔ od = none) ∧
    (∀ d, od = some d →
      identityA od = .ok ⟨d, eyeMatrix d⟩ ∧ identityB od = .ok (List.replicate d 0)) := by
  cases od <;> simp [identityA, identityB]

/-- Claim C7 witness: the error with `input_dim` unset, and the computed
2 × 2 identity and zero vector with `input_dim = 2`. -/
theorem claim7_witness :
    identityA none = .error identityErrMsg ∧
    identityA (some 2) = .ok ⟨2, [[1, 0], [0, 1]]⟩ ∧
    identityB (some 2) = .ok [0, 0] := by
  refine ⟨(claim7_identity_props none).2.2.1.mpr rfl, ?_, ?_⟩
  · rw [((claim7_identity_props (some 2)).2.2.2.2 2 rfl).1]
    simp [eyeMatrix, List.range_succ]
  · rw [((claim7_identity_props (some 2)).2.2.2.2 2 rfl).2]
    rfl

/-- Claim C8: assigning to Identity's `A` or `b` is a silent no-op —
afterwards the state is unchanged, `A`/`b` read the same computed values,
and evaluation still returns X unchanged. -/
theorem claim8_setters_noop (s : IdentityState) (v : Tensor2) (w : List Val) (X : Tensor2) :
    identitySetA s v = s ∧ identitySetB s w = s ∧
    identityA (identitySetA s v).input_dim = identityA s.input_dim ∧
    identityB (identitySetA s v).input_dim = identityB s.input_dim ∧
    identityA (identitySetB s w).input_dim = identityA s.input_dim ∧
    identityB (identitySetB s w).input_dim = identityB s.input_dim ∧
    eval (.Identity (identitySetA s v).input_dim) X = some X ∧
    eval (.Identity (identitySetB s w).input_dim) X = some X :=
  ⟨rfl, rfl, rfl, rfl, rfl, rfl, eval_identity _ X, eval_identity _ X⟩

/-- Claim C9: Constant tiles its stored row c to one row per input row,
and Zero produces an (N, output_dim) tensor of zeros; both use only the
input's row count, so inputs with equal row counts give equal outputs. -/
theorem claim9_constant_zero (c : List Val) (q : Nat) (X Xp : Tensor2) :
    eval (.Constant c) X = some ⟨c.length, List.replicate X.data.length c⟩ ∧
    eval (.Zero q) X = some ⟨q, List.replicate X.data.length (List.replicate q 0)⟩ ∧
    (X.data.length = Xp.data.length →
      eval (.Constant c) X = eval (.Constant c) Xp ∧
      eval (.Zero q) X = eval (.Zero q) Xp) := by
  refine ⟨eval_constant c X, eval_zero q X, fun h => ⟨?_, ?_⟩⟩
  · rw [eval_constant, eval_constant]
    have hr : X.rows = Xp.rows := h
    rw [hr]
  · rw [eval_zero, eval_zero]
    have hr : X.rows = Xp.rows := h
    rw [hr]

/-- Claim C9 witness: a concrete Constant and Zero evaluation, and
value-independence across two inputs with the same row count. -/
theorem claim9_witness :
    eval (.Constant [7]) ⟨2, [[1, 2], [3, 4]]⟩ = some ⟨1, [[7], [7]]⟩ ∧
    eval (.Constant [7]) ⟨2, [[1, 2], [3, 4]]⟩
      = eval (.Constant [7]) ⟨3, [[5, 5, 5], [6, 6, 6]]⟩ ∧
    eval (.Zero 2) ⟨2, [[1, 2], [3, 4]]⟩ = eval (.Zero 2) ⟨3, [[5, 5, 5], [6, 6, 6]]⟩ := by
  refine ⟨?_, ?_, ?_⟩
  · exact (claim9_constant_zero [7] 2 ⟨2, [[1, 2], [3, 4]]⟩ ⟨3, [[5, 5, 5], [6, 6, 6]]⟩).1
  · exact ((claim9_constant_zero [7] 2 ⟨2, [[1, 2], [3, 4]]⟩
      ⟨3, [[5, 5, 5], [6, 6, 6]]⟩).2.2 rfl).1
  · exact ((claim9_constant_zero [7] 2 ⟨2, [[1, 2], [3, 4]]⟩
      ⟨3, [[5, 5, 5], [6, 6, 6]]⟩).2.2 rfl).2

/-- Claim C3: on a common input, Additive evaluates to the elementwise sum
of its children's outputs and Product to their elementwise product (given
equal output widths), and both are commutative in value. -/
theorem claim3_additive_product (f g : MeanFunction) (d : Nat) (X Yf Yg : Tensor2)
    (hwf : X.wf) (hc : X.cols = d)
    (hfok : ∀ row ∈ X.data, rowOKb f row = true)
    (hgok : ∀ row ∈ X.data, rowOKb g row = true)
    (hf : eval f X = some Yf) (hg : eval g X = some Yg)
    (hcols : Yf.cols = Yg.cols) :
    eval (.Additive f g) X =
      some ⟨Yf.cols, List.zipWith (List.zipWith (· + ·)) Yf.data Yg.data⟩ ∧
    eval (.Product f g) X =
      some ⟨Yf.cols, List.zipWith (List.zipWith (· * ·)) Yf.data Yg.data⟩ ∧
    eval (.Additive f g) X = eval (.Additive g f) X ∧
    eval (.Product f g) X = eval (.Product g f) X := by
  have hrows : Yf.rows = Yg.rows := by
    rcases eval_dichotomy f d with hfa | ⟨q1, φ1, hs1⟩
    · rw [hfa X hwf hc hfok] at hf
      exact absurd hf (by simp)
    rcases eval_dichotomy g d with hga | ⟨q2, φ2, hs2⟩
    · rw [hga X hwf hc hgok] at hg
      exact absurd hg (by simp)
    rw [hs1.2 X hwf hc hfok] at hf
    rw [hs2.2 X hwf hc hgok] at hg
    rw [← Option.some.inj hf, ← Option.some.inj hg]
    simp [Tensor2.rows]
  have hAdd : eval (.Additive f g) X =
      some ⟨Yf.cols, List.zipWith (List.zipWith (· + ·)) Yf.data Yg.data⟩ := by
    rw [eval_additive, hf, hg]
    simp only [Option.bind_eq_bind, Option.some_bind]
    exact elemwise_same_shape _ Yf Yg hrows hcols
  have hAdd2 : eval (.Additive g f) X =
      some ⟨Yg.cols, List.zipWith (List.zipWith (· + ·)) Yg.data Yf.data⟩ := by
    rw [eval_additive, hg, hf]
    simp only [Option.bind_eq_bind, Option.some_bind]
    exact elemwise_same_shape _ Yg Yf hrows.symm hcols.symm
  have hProd : eval (.Product f g) X =
      some ⟨Yf.cols, List.zipWith (List.zipWith (· * ·)) Yf.data Yg.data⟩ := by
    rw [eval_product, hf, hg]
    simp only [Option.bind_eq_bind, Option.some_bind]
    exact elemwise_same_shape _ Yf Yg hrows hcols
  have hProd2 : eval (.Product g f) X =
      some ⟨Yg.cols, List.zipWith (List.zipWith (· * ·)) Yg.data Yf.data⟩ := by
    rw [eval_product, hg, hf]
    simp only [Option.bind_eq_bind, Option.some_bind]
    exact elemwise_same_shape _ Yg Yf hrows.symm hcols.symm
  refine ⟨hAdd, hProd, ?_, ?_⟩
  · rw [hAdd, hAdd2]
    have hcomm : List.zipWith (List.zipWith (· + ·)) Yf.data Yg.data
        = List.zipWith (List.zipWith (· + ·)) Yg.data Yf.data :=
      List.zipWith_comm_of_comm _
        (fun x y => List.zipWith_comm_of_comm _ (fun a b => add_comm a b) x y) _ _
    rw [hcomm, hcols]
  · rw [hProd, hProd2]
    have hcomm : List.zipWith (List.zipWith (· * ·)) Yf.data Yg.data
        = List.zipWith (List.zipWith (· * ·)) Yg.data Yf.data :=
      List.zipWith_comm_of_comm _
        (fun x y => List.zipWith_comm_of_comm _ (fun a b => mul_comm a b) x y) _ _
    rw [hcomm, hcols]

/-- Claim C3 witness: two constant children of width 2, summed,
multiplied, and in both argument orders. -/
theorem claim3_witness :
    eval (.Additive (.Constant [1, 2]) (.Constant [10, 20])) ⟨1, [[0]]⟩
      = some ⟨2, [[11, 22]]⟩ ∧
    eval (.Product (.Constant [1, 2]) (.Constant [10, 20])) ⟨1, [[0]]⟩
      = some ⟨2, [[10, 40]]⟩ ∧
    eval (.Additive (.Constant [1, 2]) (.Constant [10, 20])) ⟨1, [[0]]⟩
      = eval (.Additive (.Constant [10, 20]) (.Constant [1, 2])) ⟨1, [[0]]⟩ ∧
    eval (.Product (.Constant [1, 2]) (.Constant [10, 20])) ⟨1, [[0]]⟩
      = eval (.Product (.Constant [10, 20]) (.Constant [1, 2])) ⟨1, [[0]]⟩ := by
  have h := claim3_additive_product (.Constant [1, 2]) (.Constant [10, 20]) 1 ⟨1, [[0]]⟩
    ⟨2, [[1, 2]]⟩ ⟨2, [[10, 20]]⟩ (by decide) rfl (by decide) (by decide)
    (by decide) (by decide) rfl
  refine ⟨?_, ?_, h.2.2.1, h.2.2.2⟩
  · rw [h.1]
    norm_num
  · rw [h.2.1]
    norm_num

/-- Claim C4: on valid well-formed inputs of a common width, every mean
function produces exactly one output row per input row, and output row i
is a function of input row i alone (two runs agreeing on row i agree on
output row i). -/
theorem claim4_row_wise (m : MeanFunction) (d : Nat) (X Xp Y Yp : Tensor2) (i : Nat)
    (hXwf : X.wf) (hXc : X.cols = d) (hXok : ∀ row ∈ X.data, rowOKb m row = true)
    (hPwf : Xp.wf) (hPc : Xp.cols = d) (hPok : ∀ row ∈ Xp.data, rowOKb m row = true)
    (hY : eval m X = some Y) (hYp : eval m Xp = some Yp) :
    Y.data.length = X.data.length ∧
    (i < X.data.length → i < Xp.data.length →
      X.data.getD i [] = Xp.data.getD i [] → Y.data.getD i [] = Yp.data.getD i []) := by
  rcases eval_dichotomy m d with hfail | ⟨q, φ, hspec⟩
  · rw [hfail X hXwf hXc hXok] at hY
    exact absurd hY (by simp)
  · rw [hspec.2 X hXwf hXc hXok] at hY
    rw [hspec.2 Xp hPwf hPc hPok] at hYp
    have hY2 : Y = ⟨q, X.data.map φ⟩ := (Option.some.inj hY).symm
    have hYp2 : Yp = ⟨q, Xp.data.map φ⟩ := (Option.some.inj hYp).symm
    subst hY2
    subst hYp2
    refine ⟨by simp, fun hi hip heq => ?_⟩
    rw [List.getD_eq_getElem _ _ (by simpa using hi),
      List.getD_eq_getElem _ _ (by simpa using hip),
      List.getElem_map, List.getElem_map]
    rw [List.getD_eq_getElem _ _ hi, List.getD_eq_getElem _ _ hip] at heq
    rw [heq]

/-- Claim C4 witness: the row count and the row-0 agreement of two runs of
a constant mean function whose inputs agree on row 0 only. -/
theorem claim4_witness :
    (Tensor2.mk 1 [[5], [5]]).data.length = (Tensor2.mk 1 [[1], [2]]).data.length ∧
    (Tensor2.mk 1 [[5], [5]]).data.getD 0 [] = (Tensor2.mk 1 [[5], [5]]).data.getD 0 [] := by
  have h := claim4_row_wise (.Constant [5]) 1 ⟨1, [[1], [2]]⟩ ⟨1, [[1], [9]]⟩
    ⟨1, [[5], [5]]⟩ ⟨1, [[5], [5]]⟩ 0 (by decide) rfl (by decide) (by decide) rfl
    (by decide) (by decide) (by decide)
  exact ⟨h.1, h.2 (by decide) (by decide) (by decide)⟩

/-- Claim C1: a switched mean function maps each row, in original order,
to its labelled child applied to the row's feature columns; in particular
the concrete two-child example from the specification evaluates to
[[1], [2], [1]]. -/
theorem claim1_switched_routing (cs : List MeanFunction) (d : Nat) (X Y : Tensor2)
    (hwf : X.wf) (hc : X.cols = d + 1)
    (hok : ∀ row ∈ X.data, rowOKb (.SwitchedMeanFunction cs) row = true)
    (hev : eval (.SwitchedMeanFunction cs) X = some Y) :
    (Y.data.length = X.data.length ∧
      ∀ i, i < X.data.length →
        ∃ Z : Tensor2,
          eval (cs.getD (castToInt ((X.data.getD i []).getD d 0)).toNat (.Zero 0))
              ⟨d, [(X.data.getD i []).take d]⟩ = some Z ∧
          Z.data = [Y.data.getD i []]) ∧
    eval (.SwitchedMeanFunction [.Constant [1], .Constant [2]])
        ⟨2, [[1/10, 0], [1/5, 1], [3/10, 0]]⟩ = some ⟨1, [[1], [2], [1]]⟩ := by
  refine ⟨?_, by decide⟩
  by_cases hK0 : cs.length = 0
  · have hcs : cs = [] := List.length_eq_zero.1 hK0
    subst hcs
    have hdata : X.data = [] := by
      cases hX : X.data with
      | nil => rfl
      | cons r t =>
        have hr := hok r (by rw [hX]; exact List.mem_cons_self _ _)
        rw [rowOKb_switch] at hr
        simp [rowOKbAt] at hr
    cases X with
    | mk co da =>
      have hda : da = [] := hdata
      subst hda
      have hevc : eval (.SwitchedMeanFunction []) (⟨co, []⟩ : Tensor2) = some ⟨0, []⟩ := rfl
      rw [hevc] at hev
      have hY : Y = ⟨0, []⟩ := (Option.some.inj hev).symm
      subst hY
      exact ⟨rfl, fun i hi => absurd hi (by simp)⟩
  · have hK : 0 < cs.length := Nat.pos_of_ne_zero hK0
    rcases specs_choice cs d (fun c _ => eval_dichotomy c d) with
      ⟨g, h, hfail⟩ | ⟨Q, Φ, hspec⟩
    · rw [switched_eval_none_of_child_fails cs d g h hfail X hwf (by omega) hok] at hev
      exact absurd hev (by simp)
    · by_cases hQeq : ∀ g, g < cs.length → Q g = Q 0
      · have hres := switched_eval_of_specs cs d Q Φ hspec hQeq hK X hwf (by omega) hok
        rw [hres] at hev
        have hY : Y = ⟨Q 0, X.data.map (fun row =>
            Φ (castToInt (row.getD d 0)).toNat (row.take d))⟩ :=
          (Option.some.inj hev).symm
        subst hY
        refine ⟨by simp, ?_⟩
        intro i hi
        have hrowmem : X.data.getD i [] ∈ X.data := by
          rw [List.getD_eq_getElem _ _ hi]
          exact List.getElem_mem _
        have hoki := hok _ hrowmem
        rw [rowOKb_switch] at hoki
        rcases (rowOKbAt_iff cs _ _).1 hoki with ⟨g, hlab, hlt, hok2⟩
        have hlen : (X.data.getD i []).length = d + 1 := by
          rw [hwf _ hrowmem, hc]
        rw [hlen] at hlab hok2
        simp only [Nat.add_sub_cancel] at hlab hok2
        rw [List.getD_eq_getElem _ _ hlt] at hok2
        refine ⟨⟨Q g, [Φ g ((X.data.getD i []).take d)]⟩, ?_, ?_⟩
        · rw [hlab, Int.toNat_natCast, List.getD_eq_getElem _ _ hlt]
          have happ := (hspec g hlt).2 ⟨d, [(X.data.getD i []).take d]⟩ ?_ rfl ?_
          · exact happ
          · intro r hr
            rw [List.mem_singleton.1 hr]
            simp only [List.length_take]
            omega
          · intro r hr
            rw [List.mem_singleton.1 hr]
            exact hok2
        · have hYi : (X.data.map (fun row =>
              Φ (castToInt (row.getD d 0)).toNat (row.take d))).getD i []
              = Φ (castToInt ((X.data.getD i []).getD d 0)).toNat
                  ((X.data.getD i []).take d) := by
            rw [List.getD_eq_getElem _ _ (by simpa using hi), List.getElem_map,
              ← List.getD_eq_getElem _ _ hi]
          rw [hYi, hlab, Int.toNat_natCast]
      · push_neg at hQeq
        obtain ⟨g0, hg0, hne⟩ := hQeq
        rw [switched_eval_none_of_unequal cs d Q Φ hspec g0 hg0 hne X hwf (by omega) hok]
          at hev
        exact absurd hev (by simp)

/-- Claim C1 witness: in the concrete example, one output row per input
row, and row 1 is exactly the result of its child on that row's feature. -/
theorem claim1_witness :
    (Tensor2.mk 1 [[1], [2], [1]]).data.length = 3 ∧
    (eval (.Constant [2]) ⟨1, [[1/5]]⟩).map Tensor2.data = some [[(2 : Val)]] := by
  have h := claim1_switched_routing [.Constant [1], .Constant [2]] 1
    ⟨2, [[1/10, 0], [1/5, 1], [3/10, 0]]⟩ ⟨1, [[1], [2], [1]]⟩ (by decide) rfl
    (by decide) (by decide)
  refine ⟨h.1.1, ?_⟩
  obtain ⟨Z, hZ, hZd⟩ := h.1.2 1 (by decide)
  have hZ2 : eval (.Constant [2]) ⟨1, [[1/5]]⟩ = some Z := hZ
  rw [hZ2, Option.map_some', hZd]
  rfl

/-- Claim C10: during one switched evaluation every child is invoked on
its (possibly empty) partition: success requires every child — including
those whose label matches no row — to succeed on its partition, the
output has one row per input row, and a child failing on its partition
(even an empty one) fails the whole evaluation. -/
theorem claim10_children_once (cs : List MeanFunction) (d : Nat) (X : Tensor2)
    (hwf : X.wf) (hc : X.cols = d + 1)
    (hok : ∀ row ∈ X.data, rowOKb (.SwitchedMeanFunction cs) row = true) :
    (∀ Y, eval (.SwitchedMeanFunction cs) X = some Y →
      Y.data.length = X.data.length ∧
      ∀ g, g < cs.length →
        ∃ Z, eval (cs.getD g (.Zero 0)) (partTensor X g) = some Z) ∧
    (∀ g, g < cs.length → eval (cs.getD g (.Zero 0)) (partTensor X g) = none →
      eval (.SwitchedMeanFunction cs) X = none) := by
  constructor
  · intro Y hev
    constructor
    · rcases eval_dichotomy (.SwitchedMeanFunction cs) (d + 1) with hfail | ⟨q, φ, hspec⟩
      · rw [hfail X hwf hc hok] at hev
        exact absurd hev (by simp)
      · rw [hspec.2 X hwf hc hok] at hev
        rw [← Option.some.inj hev]
        simp
    · intro g hg
      rw [eval_switched, switch_arg_eq] at hev
      cases hevl : evalList cs ((List.range cs.length).map (fun g => partTensor X g)) with
      | none =>
        rw [hevl] at hev
        exact absurd hev (by simp)
      | some results =>
        have hxlen : g < ((List.range cs.length).map (fun g => partTensor X g)).length := by
          simpa using hg
        obtain ⟨z, hz⟩ := evalList_isSome_get cs _ results hevl g hg hxlen
        have hxget : ((List.range cs.length).map (fun g => partTensor X g)).get ⟨g, hxlen⟩
            = partTensor X g := by
          rw [List.get_eq_getElem, List.getElem_map, List.getElem_range]
        rw [hxget] at hz
        refine ⟨z, ?_⟩
        rw [List.getD_eq_getElem _ _ hg]
        exact hz
  · intro g hg hnone
    have hfailg : eval (cs.get ⟨g, hg⟩)
        (((List.range cs.length).map (fun g => partTensor X g)).get ⟨g, by simpa using hg⟩)
        = none := by
      have hxget : ((List.range cs.length).map (fun g => partTensor X g)).get
          ⟨g, by simpa using hg⟩ = partTensor X g := by
        rw [List.get_eq_getElem, List.getElem_map, List.getElem_range]
      rw [hxget]
      rw [List.getD_eq_getElem _ _ hg] at hnone
      exact hnone
    rw [eval_switched, switch_arg_eq]
    rw [evalList_eq_none cs _ g hg (by simpa using hg) hfailg]
    rfl

/-- Claim C10 witness: a child whose label matches no row is still invoked
on the empty feature matrix — a shape-incompatible Linear there fails the
whole evaluation — while the successful example produces one output row
per input row. -/
theorem claim10_witness :
    eval (.SwitchedMeanFunction [.Constant [1], .Linear ⟨1, [[1], [1]]⟩ [0]])
      ⟨2, [[7, 0]]⟩ = none ∧
    (Tensor2.mk 1 [[1]]).data.length = (Tensor2.mk 2 [[7, 0]]).data.length := by
  constructor
  · exact (claim10_children_once [.Constant [1], .Linear ⟨1, [[1], [1]]⟩ [0]] 1
      ⟨2, [[7, 0]]⟩ (by decide) rfl (by decide)).2 1 (by decide) (by decide)
  · exact ((claim10_children_once [.Constant [1], .Constant [2]] 1 ⟨2, [[7, 0]]⟩
      (by decide) rfl (by decide)).1 ⟨1, [[1]]⟩ (by decide)).1

end GPflow
